import Mathlib

set_option maxRecDepth 10000

/-!
Shallow embedding of the `overlay-rs` bit-field layout core.

The source of truth is the code generated by the `#[overlay]` attribute macro
(`overlay_macro/src/lib.rs`): per-field getters and setters over a byte buffer,
the `Overlay::overlay` / `overlay_mut` length-checked casts, nested sub-views,
and the definition-time layout checks performed while expanding the macro.
Bytes are modelled as `Nat` values below 256, buffers as `List Nat`, and the
32-bit accumulator arithmetic is carried out on `Nat` with explicit `% 2 ^ 32`
wherever the Rust `u32` operations wrap.
-/

/-- Span argument of the `#[overlay(...)]` attribute, the macro's
`SingleOrRange`: a single index (`byte=3`), a half-open range (`bits=0..8`) or
an inclusive range (`bits=0..=7`). -/
inductive SingleOrRange where
  | single (x : Nat)
  | range (s e : Nat)
  | rangeIncl (s e : Nat)
deriving DecidableEq

/-- Start of the span, `SingleOrRange::start`. -/
def SingleOrRange.start : SingleOrRange → Nat
  | .single x => x
  | .range s _ => s
  | .rangeIncl s _ => s

/-- Inclusive end of the span, `SingleOrRange::end_inclusive` (a half-open
range `s..e` has inclusive end `e - 1`). -/
def SingleOrRange.endInclusive : SingleOrRange → Nat
  | .single x => x
  | .range _ e => e - 1
  | .rangeIncl _ e => e

/-- Length of the span, `SingleOrRange::len`. -/
def SingleOrRange.len (r : SingleOrRange) : Nat := r.endInclusive - r.start + 1

/-- Whether `SingleOrRange::assert_range_valid` passes: a half-open range needs
`start < end`, an inclusive range needs `start ≤ end`. -/
def SingleOrRange.rangeValid : SingleOrRange → Bool
  | .single _ => true
  | .range s e => decide (s < e)
  | .rangeIncl s e => decide (s ≤ e)

/-- All-ones 32-bit word, Rust `!0_u32`. -/
def u32Max : Nat := 2 ^ 32 - 1

/-- Accumulation loop of the generated Integer/Enum getter: starting from `0`,
shift the 32-bit accumulator left by 8 (wrapping) and OR in the next byte,
walking `cnt` bytes upward from index `i`. -/
def accumAux (buf : List Nat) : Nat → Nat → Nat → Nat
  | _, 0, v => v
  | i, cnt + 1, v => accumAux buf (i + 1) cnt (((v <<< 8) % 2 ^ 32) ||| buf.getD i 0)

/-- Big-endian accumulation of bytes `sb..=eb`, the `for i in sb..=eb` loop of
the generated getter. -/
def accum (buf : List Nat) (sb eb : Nat) : Nat := accumAux buf sb (eb + 1 - sb) 0

/-- Body of the generated Integer/Enum getter: accumulate the addressed bytes
big-endian, mask off the bits above `eBit` — but only when `eBit > 0`, the
code's literal guard — then shift right by `sBit`. -/
def decode (buf : List Nat) (sb eb sBit eBit : Nat) : Nat :=
  let value := accum buf sb eb
  let value := if eBit > 0 then value &&& (u32Max >>> (31 - eBit)) else value
  value >>> sBit

/-- Mask built at the top of the generated setter: `!0_u32 << start_bit`,
then `&= !0_u32 >> (31 - end_bit)` — only when `end_bit > 0`. -/
def setMask (sBit eBit : Nat) : Nat :=
  let mask := (u32Max <<< sBit) % 2 ^ 32
  if eBit > 0 then mask &&& (u32Max >>> (31 - eBit)) else mask

/-- Write loop of the generated setter: walk `cnt` bytes downward from index
`i`, replacing each byte by `(old & !mask as u8) | (new as u8)` and shifting
both the running mask and the running value right by 8 between bytes. -/
def encodeAux : List Nat → Nat → Nat → Nat → Nat → List Nat
  | buf, _, 0, _, _ => buf
  | buf, i, cnt + 1, mask, nw =>
    encodeAux (buf.set i ((buf.getD i 0 &&& ((u32Max ^^^ mask) % 256)) ||| (nw % 256)))
      (i - 1) cnt (mask >>> 8) (nw >>> 8)

/-- Body of the generated Integer/Enum setter: build the window mask, compute
`((val as u32) << start_bit) & mask`, then read-modify-write the bytes
`sb..=eb` from the least significant (index `eb`) upward. -/
def encode (buf : List Nat) (sb eb sBit eBit v : Nat) : List Nat :=
  encodeAux buf eb (eb + 1 - sb) (setMask sBit eBit) (((v <<< sBit) % 2 ^ 32) &&& setMask sBit eBit)

/-- Generated bool getter: `(self.0[start_byte] >> start_bit) & 1 != 0`. -/
def boolGet (buf : List Nat) (sb sBit : Nat) : Bool :=
  ((buf.getD sb 0 >>> sBit) &&& 1) != 0

/-- Generated bool setter: clear the addressed bit with `&= !(1 << start_bit)`
(u8 arithmetic), then OR in `(bit_value << start_bit) as u8`. -/
def boolSet (buf : List Nat) (sb sBit : Nat) (val : Bool) : List Nat :=
  let bitValue : Nat := if val then 1 else 0
  buf.set sb ((buf.getD sb 0 &&& (255 ^^^ ((1 <<< sBit) % 256))) ||| ((bitValue <<< sBit) % 256))

/-- Error type of the `overlay` crate (`overlay/src/lib.rs`). -/
inductive OverlayError where
  | insufficientLength
deriving DecidableEq

/-- Generated `Overlay::overlay` / `overlay_mut`: reject a buffer shorter than
the record's byte count, otherwise reinterpret its `n`-byte prefix as the
record (`&Self` is a newtype over `[u8; n]`, so the view covers exactly the
first `n` bytes). -/
def overlayCast (n : Nat) (bytes : List Nat) : Except OverlayError (List Nat) :=
  if bytes.length < n then .error .insufficientLength else .ok (bytes.take n)

/-- Running `last_byte` maximum the macro accumulates across the field list
(initial value 0, updated with each field's inclusive end byte). -/
def lastByte (fields : List SingleOrRange) : Nat :=
  fields.foldl (fun acc r => max acc r.endInclusive) 0

/-- Generated record size: `let byte_count = last_byte as usize + 1`, exposed
as the associated constant `BYTE_LEN` of the record type. -/
def byteCount (fields : List SingleOrRange) : Nat := lastByte fields + 1

/-- Bit window of an Integer/Enum field: the explicit `bits` span when given,
otherwise the full width `(0, byte_len * 8 - 1)` of the byte span (the macro's
`lim`). -/
def intBitRange (byte : SingleOrRange) (bits : Option SingleOrRange) : Nat × Nat :=
  match bits with
  | none => (0, byte.len * 8 - 1)
  | some b => (b.start, b.endInclusive)

/-- Definition-time checks the macro performs on a Bool field, in source
order: `assert_range_valid` on the byte span, then on the bit span when given,
then the Bool branch's single-bit check (`bits.end_inclusive() != bits.start()`
panics). A macro panic is modelled as `none`; on success the selected start
bit is returned (0 when no bit span is given). -/
def validateBool (byte : SingleOrRange) (bits : Option SingleOrRange) : Option Nat :=
  if byte.rangeValid = false then none
  else match bits with
    | none => some 0
    | some b =>
      if b.rangeValid = false then none
      else if b.endInclusive ≠ b.start then none
      else some b.start

/-- Enum of the test `enum_getters_setters` (`tests/overlay_macro.rs`), the
closed symbolic domain routed through the Enumerated-Value Adapter. -/
inductive E where
  | X
  | Y
  | Z
deriving DecidableEq

/-- The test's `TryFrom` conversion for `E`: raw values 0, 1, 2 are the valid
set, everything else is rejected with `Err(())`. -/
def E.tryFrom (v : Nat) : Except Unit E :=
  if v = 0 then .ok .X
  else if v = 1 then .ok .Y
  else if v = 2 then .ok .Z
  else .error ()

/-- Discriminant of `E`, the total `val as u32` cast the generated setter
applies to the symbolic value. -/
def E.toRaw : E → Nat
  | .X => 0
  | .Y => 1
  | .Z => 2

/-- Representation width in bits chosen from the byte-span length: 1, 2, 4, 8
bytes give `u8`, `u16`, `u32`, `u64`; any other span length is a
definition-time panic, modelled as `none`. -/
def enumReprWidth (spanBytes : Nat) : Option Nat :=
  if spanBytes = 1 then some 8
  else if spanBytes = 2 then some 16
  else if spanBytes = 4 then some 32
  else if spanBytes = 8 then some 64
  else none

/-- Generated Enum getter: run the Integer decode, narrow the accumulator to
the representation width (`value as u8`-style cast), then `try_from`. -/
def enumGet (buf : List Nat) (sb eb sBit eBit w : Nat) : Except Unit E :=
  E.tryFrom (decode buf sb eb sBit eBit % 2 ^ w)

/-- Generated Enum setter: encode the symbolic value's discriminant through
the Integer setter. -/
def enumSet (buf : List Nat) (sb eb sBit eBit : Nat) (e : E) : List Nat :=
  encode buf sb eb sBit eBit e.toRaw

/-- Generated nested accessor: take the sub-slice `&self.0[sb..=eb]` of the
outer buffer and apply the inner type's `overlay` cast (inner byte length
`innerLen`). -/
def nestedView (buf : List Nat) (sb eb innerLen : Nat) : Except OverlayError (List Nat) :=
  overlayCast innerLen ((buf.drop sb).take (eb + 1 - sb))

/-- Mutation through the nested mutable view: the inner accessors write in
place into the sub-slice `self.0[sb..=eb]`, so the outer buffer afterwards is
the outer bytes with that region replaced by the mutated slice. -/
def writeThroughNested (buf : List Nat) (sb eb : Nat) (f : List Nat → List Nat) : List Nat :=
  buf.take sb ++ f ((buf.drop sb).take (eb + 1 - sb)) ++ buf.drop (eb + 1)

/-- Getter of `InquiryCommand::op_code` (`#[overlay(byte=0, bits=0..8)]`,
type `u8`): byte 0, bit window 0..=7, narrowed by the `as u8` cast. -/
def inquiryOpCode (buf : List Nat) : Nat := decode buf 0 0 0 7 % 2 ^ 8

/-- Getter of `InquiryCommand::product_data` (`#[overlay(byte=1, bit=0)]`,
type `bool`). -/
def inquiryProductData (buf : List Nat) : Bool := boolGet buf 1 0

/-- Getter of `InquiryCommand::page_code` (`#[overlay(byte=2, bits=1..=7)]`,
type `u8`). -/
def inquiryPageCode (buf : List Nat) : Nat := decode buf 2 2 1 7 % 2 ^ 8

/-- Getter of `InquiryCommand::allocation_length`
(`#[overlay(bytes=3..=4, bits=0..14)]`, type `u16`). -/
def inquiryAllocationLength (buf : List Nat) : Nat := decode buf 3 4 0 13 % 2 ^ 16

/-- Setter of `InquiryCommand::page_code`; the argument is a `u8`. -/
def inquirySetPageCode (buf : List Nat) (v : Nat) : List Nat := encode buf 2 2 1 7 (v % 2 ^ 8)

/-- Setter of `InquiryCommand::allocation_length`; the argument is a `u16`. -/
def inquirySetAllocationLength (buf : List Nat) (v : Nat) : List Nat :=
  encode buf 3 4 0 13 (v % 2 ^ 16)

/-- Buffers are byte buffers: every position, in range or (defaulted) out of
range, reads below 256. -/
theorem getD_lt_256 (buf : List Nat) (hb : ∀ x ∈ buf, x < 256) (k : Nat) :
    buf.getD k 0 < 256 := by
  rw [List.getD_eq_getElem?_getD]
  rcases h : buf[k]? with _ | b
  · simp
  · simpa using hb b (List.getElem?_mem h)

/-- Bitwise OR stays below a power of two when both arguments do. -/
theorem lor_lt_two_pow {a b n : Nat} (ha : a < 2 ^ n) (hb : b < 2 ^ n) :
    a ||| b < 2 ^ n := by
  apply Nat.lt_pow_two_of_testBit
  intro i hi
  have h2 : (2 : Nat) ^ n ≤ 2 ^ i := Nat.pow_le_pow_right (by norm_num) hi
  rw [Nat.testBit_lor, Nat.testBit_lt_two_pow (lt_of_lt_of_le ha h2),
    Nat.testBit_lt_two_pow (lt_of_lt_of_le hb h2)]
  rfl

/-- Unfolding of one accumulation step at the most significant end: adding one
more byte below the already accumulated ones. -/
theorem accumAux_succ (buf : List Nat) :
    ∀ cnt i v, accumAux buf i (cnt + 1) v =
      ((accumAux buf i cnt v <<< 8) % 2 ^ 32) ||| buf.getD (i + cnt) 0 := by
  intro cnt
  induction cnt with
  | zero => intro i v; simp [accumAux]
  | succ c ih =>
    intro i v
    show accumAux buf (i + 1) (c + 1) (((v <<< 8) % 2 ^ 32) ||| buf.getD i 0)
        = ((accumAux buf (i + 1) c (((v <<< 8) % 2 ^ 32) ||| buf.getD i 0) <<< 8) % 2 ^ 32)
            ||| buf.getD (i + (c + 1)) 0
    rw [ih]
    have : i + 1 + c = i + (c + 1) := by omega
    rw [this]

/-- Bit-level characterization of the getter's accumulator: bit `j` of the
accumulated word is bit `j % 8` of the byte `j / 8` positions above the least
significant accumulated byte, provided `j` is inside both the accumulated span
and the 32-bit word. -/
theorem accumAux_testBit (buf : List Nat) (hb : ∀ k, buf.getD k 0 < 256) :
    ∀ cnt i j, ((accumAux buf i cnt 0).testBit j = true ↔
      (j < 32 ∧ j < 8 * cnt ∧ (buf.getD (i + cnt - 1 - j / 8) 0).testBit (j % 8) = true)) := by
  intro cnt
  induction cnt with
  | zero =>
    intro i j
    simp [accumAux]
  | succ c ih =>
    intro i j
    rw [accumAux_succ]
    simp only [Nat.testBit_lor, Nat.testBit_mod_two_pow, Nat.testBit_shiftLeft,
      Bool.or_eq_true, Bool.and_eq_true, decide_eq_true_eq]
    by_cases h8 : j < 8
    · have hge : ¬ (j ≥ 8) := by omega
      have e1 : i + (c + 1) - 1 - j / 8 = i + c := by omega
      have e2 : j % 8 = j := by omega
      rw [e1, e2]
      constructor
      · rintro (⟨-, hj, -⟩ | hbit)
        · omega
        · exact ⟨by omega, by omega, hbit⟩
      · rintro ⟨-, -, hbit⟩
        exact Or.inr hbit
    · have hbyte : (buf.getD (i + c) 0).testBit j = false := by
        refine Nat.testBit_lt_two_pow (lt_of_lt_of_le (hb _) ?_)
        calc (256 : Nat) = 2 ^ 8 := by norm_num
        _ ≤ 2 ^ j := Nat.pow_le_pow_right (by norm_num) (by omega)
      rw [ih i (j - 8)]
      constructor
      · rintro (⟨hj32, -, hj8, hjc, hbit⟩ | hbit)
        · have e1 : i + c - 1 - (j - 8) / 8 = i + (c + 1) - 1 - j / 8 := by omega
          have e2 : (j - 8) % 8 = j % 8 := by omega
          rw [e1, e2] at hbit
          exact ⟨by omega, by omega, hbit⟩
        · rw [hbyte] at hbit
          exact absurd hbit (by simp)
      · rintro ⟨hj32, hjc, hbit⟩
        have e1 : i + c - 1 - (j - 8) / 8 = i + (c + 1) - 1 - j / 8 := by omega
        have e2 : (j - 8) % 8 = j % 8 := by omega
        exact Or.inl ⟨by omega, by omega, by omega, by omega, by rw [e1, e2]; exact hbit⟩

/-- Bit `j` of the all-ones 32-bit word. -/
theorem u32Max_testBit (j : Nat) : u32Max.testBit j = decide (j < 32) := by
  simpa [u32Max] using Nat.testBit_two_pow_sub_one 32 j

/-- Bit-level characterization of the generated setter's mask: with the end
bit inside the 32-bit word, the mask keeps bits from `sBit` up — bounded above
by `eBit` exactly when `eBit > 0`, the code's guard. -/
theorem setMask_testBit (sBit eBit j : Nat) (he : eBit ≤ 31) :
    ((setMask sBit eBit).testBit j = true) ↔
      (sBit ≤ j ∧ j < 32 ∧ (0 < eBit → j ≤ eBit)) := by
  unfold setMask
  by_cases h : eBit > 0
  · simp only [if_pos h, Nat.testBit_land, Nat.testBit_mod_two_pow, Nat.testBit_shiftLeft,
      Nat.testBit_shiftRight, u32Max_testBit, Bool.and_eq_true, decide_eq_true_eq]
    omega
  · simp only [if_neg h, Nat.testBit_mod_two_pow, Nat.testBit_shiftLeft,
      u32Max_testBit, Bool.and_eq_true, decide_eq_true_eq]
    omega

/-- Setting at or beyond the length leaves every `getD` unchanged. -/
theorem getD_set (l : List Nat) (i k : Nat) (a : Nat) :
    (l.set i a).getD k 0 = if i = k ∧ k < l.length then a else l.getD k 0 := by
  by_cases hik : i = k
  · subst hik
    by_cases hl : i < l.length
    · simp [List.getD_eq_getElem?_getD, List.getElem?_set_self hl, hl]
    · rw [List.set_eq_of_length_le (by omega), if_neg (by omega)]
  · simp [List.getD_eq_getElem?_getD, List.getElem?_set_ne hik, hik]

/-- The setter's write loop preserves the buffer length. -/
theorem encodeAux_length :
    ∀ cnt (buf : List Nat) i mask nw, (encodeAux buf i cnt mask nw).length = buf.length := by
  intro cnt
  induction cnt with
  | zero => intro buf i mask nw; rfl
  | succ c ih =>
    intro buf i mask nw
    show (encodeAux (buf.set i _) (i - 1) c (mask >>> 8) (nw >>> 8)).length = buf.length
    rw [ih]
    exact List.length_set buf i _

/-- Pointwise characterization of the setter's write loop: bytes in the
written window are replaced by the read-modify-write merge against the mask
and value shifted down to that byte's position; all other bytes (and all
positions beyond the buffer) are untouched. -/
theorem encodeAux_getD :
    ∀ cnt (buf : List Nat) i mask nw k, cnt ≤ i + 1 →
      (encodeAux buf i cnt mask nw).getD k 0 =
        if i + 1 - cnt ≤ k ∧ k ≤ i ∧ k < buf.length then
          (buf.getD k 0 &&& ((u32Max ^^^ (mask >>> (8 * (i - k)))) % 256))
            ||| ((nw >>> (8 * (i - k))) % 256)
        else buf.getD k 0 := by
  intro cnt
  induction cnt with
  | zero =>
    intro buf i mask nw k _
    have : ¬ (i + 1 - 0 ≤ k ∧ k ≤ i ∧ k < buf.length) := by omega
    simp only [encodeAux, if_neg this]
  | succ c ih =>
    intro buf i mask nw k hcnt
    show (encodeAux (buf.set i ((buf.getD i 0 &&& ((u32Max ^^^ mask) % 256)) ||| (nw % 256)))
        (i - 1) c (mask >>> 8) (nw >>> 8)).getD k 0 = _
    rw [ih _ (i - 1) (mask >>> 8) (nw >>> 8) k (by omega), List.length_set]
    by_cases hk : k = i
    · subst hk
      by_cases hkl : k < buf.length
      · rw [if_neg (show ¬ (k - 1 + 1 - c ≤ k ∧ k ≤ k - 1 ∧ k < buf.length) by omega),
          getD_set, if_pos ⟨rfl, hkl⟩,
          if_pos (show k + 1 - (c + 1) ≤ k ∧ k ≤ k ∧ k < buf.length by omega)]
        have e0 : 8 * (k - k) = 0 := by omega
        rw [e0, Nat.shiftRight_zero, Nat.shiftRight_zero]
      · rw [if_neg (show ¬ (k - 1 + 1 - c ≤ k ∧ k ≤ k - 1 ∧ k < buf.length) by omega),
          getD_set, if_neg (by omega), if_neg (by omega)]
    · rw [getD_set, if_neg (show ¬ (i = k ∧ k < buf.length) by omega)]
      by_cases hcond : i - 1 + 1 - c ≤ k ∧ k ≤ i - 1 ∧ k < buf.length
      · have e1 : (mask >>> 8) >>> (8 * (i - 1 - k)) = mask >>> (8 * (i - k)) := by
          rw [← Nat.shiftRight_add]
          congr 1
          omega
        have e2 : (nw >>> 8) >>> (8 * (i - 1 - k)) = nw >>> (8 * (i - k)) := by
          rw [← Nat.shiftRight_add]
          congr 1
          omega
        rw [if_pos hcond, if_pos (show i + 1 - (c + 1) ≤ k ∧ k ≤ i ∧ k < buf.length by omega),
          e1, e2]
      · rw [if_neg hcond, if_neg (by omega)]

/-- Two booleans agreeing on `= true` are equal. -/
theorem bool_eq_of_iff {a b : Bool} (h : a = true ↔ b = true) : a = b := by
  cases a <;> cases b <;> simp_all

/-- Bit-level characterization of the generated getter: bit `j` of the decoded
value is bit `sBit + j` of the accumulated word, subject to the 32-bit window,
the accumulated span, and — only when `eBit > 0` — the end mask. -/
theorem decode_testBit (buf : List Nat) (sb eb sBit eBit j : Nat)
    (hb : ∀ k, buf.getD k 0 < 256) (hsb : sb ≤ eb) (he31 : eBit ≤ 31) :
    ((decode buf sb eb sBit eBit).testBit j = true ↔
      (sBit + j < 32 ∧ sBit + j < 8 * (eb + 1 - sb) ∧ (0 < eBit → sBit + j ≤ eBit)
        ∧ (buf.getD (eb - (sBit + j) / 8) 0).testBit ((sBit + j) % 8) = true)) := by
  have hacc := accumAux_testBit buf hb (eb + 1 - sb) sb (sBit + j)
  have hidx : sb + (eb + 1 - sb) - 1 - (sBit + j) / 8 = eb - (sBit + j) / 8 := by omega
  rw [hidx] at hacc
  rw [show decode buf sb eb sBit eBit
      = (if 0 < eBit then accum buf sb eb &&& (u32Max >>> (31 - eBit)) else accum buf sb eb)
          >>> sBit from rfl, Nat.testBit_shiftRight]
  by_cases h0 : 0 < eBit
  · rw [if_pos h0]
    simp only [Nat.testBit_land, Bool.and_eq_true, Nat.testBit_shiftRight, u32Max_testBit,
      decide_eq_true_eq]
    rw [show accum buf sb eb = accumAux buf sb (eb + 1 - sb) 0 from rfl, hacc]
    constructor
    · rintro ⟨⟨h1, h2, h3⟩, h4⟩
      exact ⟨h1, h2, fun _ => by omega, h3⟩
    · rintro ⟨h1, h2, h3, h4⟩
      exact ⟨⟨h1, h2, h4⟩, by have := h3 h0; omega⟩
  · rw [if_neg h0]
    rw [show accum buf sb eb = accumAux buf sb (eb + 1 - sb) 0 from rfl, hacc]
    constructor
    · rintro ⟨h1, h2, h3⟩
      exact ⟨h1, h2, fun he => absurd he h0, h3⟩
    · rintro ⟨h1, h2, -, h3⟩
      exact ⟨h1, h2, h3⟩

/-- The decoded value fits the declared window: below `2 ^ (eBit + 1 - sBit)`
when the end mask is applied, and below the span/word width otherwise. -/
theorem decode_lt (buf : List Nat) (sb eb sBit eBit : Nat)
    (hb : ∀ k, buf.getD k 0 < 256) (hsb : sb ≤ eb) (he31 : eBit ≤ 31) :
    decode buf sb eb sBit eBit
      < 2 ^ (if 0 < eBit then eBit + 1 - sBit else min (8 * (eb + 1 - sb)) 32) := by
  apply Nat.lt_pow_two_of_testBit
  intro j hj
  rcases hd : (decode buf sb eb sBit eBit).testBit j with _ | _
  · rfl
  · exfalso
    obtain ⟨h1, h2, h3, -⟩ := (decode_testBit buf sb eb sBit eBit j hb hsb he31).mp hd
    by_cases h0 : 0 < eBit
    · rw [if_pos h0] at hj
      have := h3 h0
      omega
    · rw [if_neg h0] at hj
      omega

/-- The setter's output is still a byte buffer: every position reads below
256. -/
theorem encode_getD_lt (buf : List Nat) (sb eb sBit eBit v : Nat)
    (hb : ∀ k, buf.getD k 0 < 256) :
    ∀ k, (encode buf sb eb sBit eBit v).getD k 0 < 256 := by
  intro k
  rw [show encode buf sb eb sBit eBit v
      = encodeAux buf eb (eb + 1 - sb) (setMask sBit eBit)
          (((v <<< sBit) % 2 ^ 32) &&& setMask sBit eBit) from rfl,
    encodeAux_getD _ _ _ _ _ _ (by omega)]
  split
  · have h256 : (256 : Nat) = 2 ^ 8 := by norm_num
    rw [h256]
    apply lor_lt_two_pow
    · exact lt_of_le_of_lt Nat.and_le_right (by rw [← h256]; exact Nat.mod_lt _ (by norm_num))
    · rw [← h256]
      exact Nat.mod_lt _ (by norm_num)
  · exact hb k

/-- Bit `t % 8` of the byte the setter wrote at distance `t / 8` above the
least significant byte of the span: the old bit survives where the window mask
is clear, and the shifted value's bit lands where the mask is set. -/
theorem encode_byte_testBit (buf : List Nat) (sb eb sBit eBit v t : Nat)
    (hsb : sb ≤ eb) (heb : eb < buf.length) (ht : t < 8 * (eb + 1 - sb)) :
    (((encode buf sb eb sBit eBit v).getD (eb - t / 8) 0).testBit (t % 8) = true ↔
      (((buf.getD (eb - t / 8) 0).testBit (t % 8) = true
          ∧ ¬ (setMask sBit eBit).testBit t = true)
        ∨ ((((v <<< sBit) % 2 ^ 32) &&& setMask sBit eBit).testBit t = true))) := by
  have heq : 8 * (eb - (eb - t / 8)) = 8 * (t / 8) := by omega
  rw [show encode buf sb eb sBit eBit v
      = encodeAux buf eb (eb + 1 - sb) (setMask sBit eBit)
          (((v <<< sBit) % 2 ^ 32) &&& setMask sBit eBit) from rfl,
    encodeAux_getD _ _ _ _ _ _ (by omega),
    if_pos (show eb + 1 - (eb + 1 - sb) ≤ eb - t / 8 ∧ eb - t / 8 ≤ eb ∧ eb - t / 8 < buf.length
      by omega), heq]
  have e8 : t % 8 < 8 := by omega
  have eT : 8 * (t / 8) + t % 8 = t := by omega
  have h256 : (256 : Nat) = 2 ^ 8 := by norm_num
  rw [h256]
  simp only [Nat.testBit_lor, Nat.testBit_land, Nat.testBit_mod_two_pow, Nat.testBit_xor,
    Nat.testBit_shiftRight, u32Max_testBit, eT, Bool.or_eq_true, Bool.and_eq_true,
    decide_eq_true_eq]
  have e32 : t % 8 < 32 := by omega
  simp only [e8, e32, decide_True, Bool.true_xor, Bool.not_eq_true', Bool.and_eq_true,
    Bool.not_eq_true]
  tauto

/-- Round trip of the generated codec at a single field: setting `v` and
decoding again yields `v` truncated to the declared window when `eBit > 0`,
and — through the degenerate all-ones mask of the skipped end-mask case —
`v` truncated to the full span/word when `eBit = 0`. -/
theorem decode_encode (buf : List Nat) (sb eb sBit eBit v : Nat)
    (hb : ∀ k, buf.getD k 0 < 256) (hsb : sb ≤ eb) (heb : eb < buf.length)
    (hse : sBit ≤ eBit) (he31 : eBit ≤ 31) (hfit : eBit ≤ 8 * (eb + 1 - sb) - 1) :
    decode (encode buf sb eb sBit eBit v) sb eb sBit eBit =
      if 0 < eBit then v % 2 ^ (eBit + 1 - sBit) else v % 2 ^ (min (8 * (eb + 1 - sb)) 32) := by
  have hb' := encode_getD_lt buf sb eb sBit eBit v hb
  apply Nat.eq_of_testBit_eq
  intro j
  apply bool_eq_of_iff
  rw [decode_testBit _ sb eb sBit eBit j hb' hsb he31]
  by_cases h0 : 0 < eBit
  · rw [if_pos h0]
    simp only [Nat.testBit_mod_two_pow, Bool.and_eq_true, decide_eq_true_eq]
    constructor
    · rintro ⟨h1, h2, h3, hbit⟩
      have ht := h3 h0
      rw [encode_byte_testBit buf sb eb sBit eBit v (sBit + j) hsb heb h2] at hbit
      have hmask : (setMask sBit eBit).testBit (sBit + j) = true :=
        (setMask_testBit sBit eBit (sBit + j) he31).mpr ⟨by omega, h1, fun _ => ht⟩
      rcases hbit with ⟨-, hnm⟩ | hnw
      · exact absurd hmask hnm
      · simp only [Nat.testBit_land, Nat.testBit_mod_two_pow, Nat.testBit_shiftLeft,
          Bool.and_eq_true, decide_eq_true_eq] at hnw
        obtain ⟨⟨-, -, hv⟩, -⟩ := hnw
        have : sBit + j - sBit = j := by omega
        rw [this] at hv
        exact ⟨by omega, hv⟩
    · rintro ⟨hj, hv⟩
      have h2 : sBit + j < 8 * (eb + 1 - sb) := by omega
      have h1 : sBit + j < 32 := by omega
      refine ⟨h1, h2, fun _ => by omega, ?_⟩
      rw [encode_byte_testBit buf sb eb sBit eBit v (sBit + j) hsb heb h2]
      refine Or.inr ?_
      simp only [Nat.testBit_land, Nat.testBit_mod_two_pow, Nat.testBit_shiftLeft,
        Bool.and_eq_true, decide_eq_true_eq]
      have hmask : (setMask sBit eBit).testBit (sBit + j) = true :=
        (setMask_testBit sBit eBit (sBit + j) he31).mpr ⟨by omega, h1, fun _ => by omega⟩
      have : sBit + j - sBit = j := by omega
      exact ⟨⟨h1, by omega, by rw [this]; exact hv⟩, hmask⟩
  · rw [if_neg h0]
    have hs0 : sBit = 0 := by omega
    subst hs0
    simp only [Nat.zero_add, Nat.testBit_mod_two_pow, Bool.and_eq_true, decide_eq_true_eq]
    constructor
    · rintro ⟨h1, h2, -, hbit⟩
      rw [encode_byte_testBit buf sb eb 0 eBit v j hsb heb h2] at hbit
      have hmask : (setMask 0 eBit).testBit j = true :=
        (setMask_testBit 0 eBit j he31).mpr ⟨by omega, h1, fun h => absurd h h0⟩
      rcases hbit with ⟨-, hnm⟩ | hnw
      · exact absurd hmask hnm
      · simp only [Nat.testBit_land, Nat.testBit_mod_two_pow, Nat.testBit_shiftLeft,
          Bool.and_eq_true, decide_eq_true_eq, Nat.sub_zero, Nat.zero_le] at hnw
        obtain ⟨⟨-, -, hv⟩, -⟩ := hnw
        exact ⟨by omega, hv⟩
    · rintro ⟨hj, hv⟩
      have h1 : j < 32 := by omega
      have h2 : j < 8 * (eb + 1 - sb) := by omega
      refine ⟨h1, h2, fun h => absurd h h0, ?_⟩
      rw [encode_byte_testBit buf sb eb 0 eBit v j hsb heb h2]
      refine Or.inr ?_
      simp only [Nat.testBit_land, Nat.testBit_mod_two_pow, Nat.testBit_shiftLeft,
        Bool.and_eq_true, decide_eq_true_eq, Nat.sub_zero, Nat.zero_le]
      have hmask : (setMask 0 eBit).testBit j = true :=
        (setMask_testBit 0 eBit j he31).mpr ⟨by omega, h1, fun h => absurd h h0⟩
      exact ⟨⟨h1, trivial, hv⟩, hmask⟩

/-- Taking a prefix longer than an index leaves that position's `getD`
unchanged. -/
theorem getD_take (l : List Nat) (n k : Nat) (hk : k < n) :
    (l.take n).getD k 0 = l.getD k 0 := by
  rw [List.getD_eq_getElem?_getD, List.getD_eq_getElem?_getD, List.getElem?_take_of_lt hk]

/-- Dropping a prefix shifts `getD` positions. -/
theorem getD_drop (l : List Nat) (sb k : Nat) : (l.drop sb).getD k 0 = l.getD (sb + k) 0 := by
  rw [List.getD_eq_getElem?_getD, List.getD_eq_getElem?_getD, List.getElem?_drop]

/-- The accumulator only reads the bytes it addresses: two buffers agreeing on
the accumulated index range accumulate to the same word. -/
theorem accumAux_congr (buf1 buf2 : List Nat) :
    ∀ cnt i v, (∀ k, i ≤ k → k < i + cnt → buf1.getD k 0 = buf2.getD k 0) →
      accumAux buf1 i cnt v = accumAux buf2 i cnt v := by
  intro cnt
  induction cnt with
  | zero => intro i v _; rfl
  | succ c ih =>
    intro i v h
    show accumAux buf1 (i + 1) c (((v <<< 8) % 2 ^ 32) ||| buf1.getD i 0)
        = accumAux buf2 (i + 1) c (((v <<< 8) % 2 ^ 32) ||| buf2.getD i 0)
    rw [h i (Nat.le_refl i) (by omega)]
    exact ih (i + 1) _ (fun k hk1 hk2 => h k (by omega) (by omega))

/-- The generated getter never reads past the addressed bytes: decoding
through the record's prefix view equals decoding the full buffer. -/
theorem decode_take (bytes : List Nat) (n sb eb sBit eBit : Nat) (heb : eb < n) :
    decode (bytes.take n) sb eb sBit eBit = decode bytes sb eb sBit eBit := by
  have hacc : accum (bytes.take n) sb eb = accum bytes sb eb := by
    apply accumAux_congr
    intro k hk1 hk2
    exact getD_take bytes n k (by omega)
  rw [show decode (bytes.take n) sb eb sBit eBit
      = (if 0 < eBit then accum (bytes.take n) sb eb &&& (u32Max >>> (31 - eBit))
          else accum (bytes.take n) sb eb) >>> sBit from rfl, hacc]
  rfl

/-- C4: `overlay`/`overlay_mut` fail with `InsufficientLength` exactly when
the buffer is shorter than `BYTE_LEN`; in the error case the result does not
depend on the buffer's contents (nothing is read or written); a buffer at
least `BYTE_LEN` long is accepted and the view covers exactly its
`BYTE_LEN`-byte prefix, and the field accessors — Integer/Enum decode and
bool getter — read the same values through that prefix as through the whole
buffer, since every addressed byte lies below `BYTE_LEN`. -/
theorem overlay_length_contract (n : Nat) (bytes : List Nat) :
    ((overlayCast n bytes = .error .insufficientLength) ↔ bytes.length < n)
    ∧ (n ≤ bytes.length → overlayCast n bytes = .ok (bytes.take n))
    ∧ (bytes.length < n → ∀ other : List Nat, other.length < n →
        overlayCast n other = overlayCast n bytes)
    ∧ (∀ sb eb sBit eBit, eb < n →
        decode (bytes.take n) sb eb sBit eBit = decode bytes sb eb sBit eBit)
    ∧ (∀ sb sBit, sb < n → boolGet (bytes.take n) sb sBit = boolGet bytes sb sBit) := by
  refine ⟨?_, ?_, ?_, ?_, ?_⟩
  · unfold overlayCast
    by_cases h : bytes.length < n
    · simp [h]
    · simp [h]
  · intro h
    unfold overlayCast
    rw [if_neg (by omega)]
  · intro h other ho
    unfold overlayCast
    rw [if_pos h, if_pos ho]
  · intro sb eb sBit eBit heb
    exact decode_take bytes n sb eb sBit eBit heb
  · intro sb sBit hsb
    unfold boolGet
    rw [getD_take bytes n sb hsb]

/-- C4 witness: on the 3-byte buffer `[1, 2, 3]` and a 2-byte record, the
field spanning bytes 0..=1 decodes identically through the prefix view and
the full buffer. -/
theorem overlay_length_contract_witness :
    (1 : Nat) < 2 ∧ decode ([1, 2, 3].take 2) 0 1 0 15 = decode [1, 2, 3] 0 1 0 15 :=
  ⟨by decide, (overlay_length_contract 2 [1, 2, 3]).2.2.2.1 0 1 0 15 (by decide)⟩

/-- The running `last_byte` fold never drops below its initial value. -/
theorem lastByte_foldl_init_le (l : List SingleOrRange) :
    ∀ a, a ≤ l.foldl (fun acc r => max acc r.endInclusive) a := by
  induction l with
  | nil => intro a; exact Nat.le_refl a
  | cons g rest ih =>
    intro a
    rw [List.foldl_cons]
    exact Nat.le_trans (Nat.le_max_left _ _) (ih _)

/-- Every element bounds the running `last_byte` fold from below. -/
theorem lastByte_foldl_le :
    ∀ (l : List SingleOrRange) (a : Nat) (f : SingleOrRange), f ∈ l →
      f.endInclusive ≤ l.foldl (fun acc r => max acc r.endInclusive) a := by
  intro l
  induction l with
  | nil => intro a f hf; cases hf
  | cons g rest ih =>
    intro a f hf
    rw [List.foldl_cons]
    rcases List.mem_cons.mp hf with rfl | hf
    · exact Nat.le_trans (Nat.le_max_right _ _) (lastByte_foldl_init_le rest _)
    · exact ih _ f hf

/-- The running `last_byte` fold is either its initial value or some
element's inclusive end byte. -/
theorem lastByte_foldl_mem :
    ∀ (l : List SingleOrRange) (a : Nat),
      l.foldl (fun acc r => max acc r.endInclusive) a = a
        ∨ ∃ f ∈ l, l.foldl (fun acc r => max acc r.endInclusive) a = f.endInclusive := by
  intro l
  induction l with
  | nil => intro a; exact Or.inl rfl
  | cons g rest ih =>
    intro a
    rw [List.foldl_cons]
    rcases ih (max a g.endInclusive) with h | ⟨f, hf, h⟩
    · rcases Nat.le_total a g.endInclusive with hle | hle
      · exact Or.inr ⟨g, List.mem_cons_self g rest, by rw [h]; omega⟩
      · exact Or.inl (by rw [h]; omega)
    · exact Or.inr ⟨f, List.mem_cons_of_mem g hf, h⟩

/-- C8: for a nonempty field list the generated `BYTE_LEN` is one more than
the maximum inclusive end byte over all declared fields (every field ends
below it, and some field attains it), `BYTE_LEN` is computed from the field
list alone — a property of the record type, not of any instance — and both a
successfully cast view (`as_bytes`) and the all-zero `new()` buffer span
exactly `BYTE_LEN` bytes. -/
theorem byte_len_contract (fields : List SingleOrRange) (hne : fields ≠ []) :
    (∀ f ∈ fields, f.endInclusive + 1 ≤ byteCount fields)
    ∧ (∃ f ∈ fields, byteCount fields = f.endInclusive + 1)
    ∧ (∀ bytes v, overlayCast (byteCount fields) bytes = .ok v →
        v.length = byteCount fields)
    ∧ (List.replicate (byteCount fields) 0).length = byteCount fields := by
  refine ⟨?_, ?_, ?_, List.length_replicate _ _⟩
  · intro f hf
    have := lastByte_foldl_le fields 0 f hf
    unfold byteCount lastByte
    omega
  · unfold byteCount lastByte
    rcases lastByte_foldl_mem fields 0 with h | ⟨f, hf, h⟩
    · rcases fields with _ | ⟨g, rest⟩
      · exact absurd rfl hne
      · refine ⟨g, List.mem_cons_self g rest, ?_⟩
        have := lastByte_foldl_le (g :: rest) 0 g (List.mem_cons_self g rest)
        omega
    · exact ⟨f, hf, by omega⟩
  · intro bytes v hok
    unfold overlayCast at hok
    by_cases h : bytes.length < byteCount fields
    · rw [if_pos h] at hok
      cases hok
    · rw [if_neg h] at hok
      cases hok
      rw [List.length_take]
      omega

/-- C8 witness: for the two fields `byte=0` and `bytes=3..=4`, `BYTE_LEN` is
5, one more than the maximal end byte 4. -/
theorem byte_len_contract_witness :
    byteCount [.single 0, .rangeIncl 3 4] = (SingleOrRange.rangeIncl 3 4).endInclusive + 1 := by
  rcases (byte_len_contract [.single 0, .rangeIncl 3 4] (by decide)).2.1 with ⟨f, hf, h⟩
  rcases List.mem_cons.mp hf with rfl | hf
  · exact absurd h (by decide)
  · rcases List.mem_cons.mp hf with rfl | hf
    · exact h
    · exact absurd hf (List.not_mem_nil f)

/-- C6: the Enumerated-Value Adapter contract for the test domain `E`
(valid raw set {0, 1, 2}). The representation width is defined exactly for the
1-, 2-, 4- and 8-byte span lengths; the generated getter fails with `Err`
exactly when the decoded raw value, narrowed to the representation width, lies
outside the valid set (the getter is a pure read, so the buffer is untouched);
and whenever the getter succeeds, encoding the obtained symbolic value through
the total discriminant conversion restores exactly the raw value that was
decoded. -/
theorem enum_adapter_contract (buf : List Nat) (sb eb sBit eBit w : Nat)
    (hb : ∀ x ∈ buf, x < 256) (hsb : sb ≤ eb) (heb : eb < buf.length)
    (hw : enumReprWidth (eb + 1 - sb) = some w)
    (hse : sBit ≤ eBit) (he31 : eBit ≤ 31) (hfit : eBit ≤ 8 * (eb + 1 - sb) - 1) :
    (∀ m, (enumReprWidth m).isSome ↔ (m = 1 ∨ m = 2 ∨ m = 4 ∨ m = 8))
    ∧ ((enumGet buf sb eb sBit eBit w = .error ()) ↔
        ¬ (decode buf sb eb sBit eBit % 2 ^ w = 0 ∨ decode buf sb eb sBit eBit % 2 ^ w = 1
            ∨ decode buf sb eb sBit eBit % 2 ^ w = 2))
    ∧ (∀ e, enumGet buf sb eb sBit eBit w = .ok e →
        decode (enumSet buf sb eb sBit eBit e) sb eb sBit eBit % 2 ^ w
          = decode buf sb eb sBit eBit % 2 ^ w) := by
  have hbp : ∀ k, buf.getD k 0 < 256 := getD_lt_256 buf hb
  have hlt := decode_lt buf sb eb sBit eBit hbp hsb he31
  have hwle : 2 ^ (if 0 < eBit then eBit + 1 - sBit else min (8 * (eb + 1 - sb)) 32) ≤ 2 ^ w := by
    apply Nat.pow_le_pow_right (by norm_num)
    unfold enumReprWidth at hw
    split_ifs at hw with h1 h2 h3 h4
    · injection hw with hw'
      split <;> omega
    · injection hw with hw'
      split <;> omega
    · injection hw with hw'
      split <;> omega
    · injection hw with hw'
      split <;> omega
  have hre : decode buf sb eb sBit eBit % 2 ^ w = decode buf sb eb sBit eBit :=
    Nat.mod_eq_of_lt (lt_of_lt_of_le hlt hwle)
  refine ⟨?_, ?_, ?_⟩
  · intro m
    unfold enumReprWidth
    split_ifs <;> simp_all
  · unfold enumGet E.tryFrom
    split_ifs with h1 h2 h3 <;> simp_all
  · intro e he
    have hraw : E.toRaw e = decode buf sb eb sBit eBit % 2 ^ w := by
      unfold enumGet E.tryFrom at he
      split_ifs at he with h1 h2 h3
      · injection he with h'
        subst h'
        exact h1.symm
      · injection he with h'
        subst h'
        exact h2.symm
      · injection he with h'
        subst h'
        exact h3.symm
    have hmain : (if 0 < eBit then E.toRaw e % 2 ^ (eBit + 1 - sBit)
        else E.toRaw e % 2 ^ (min (8 * (eb + 1 - sb)) 32)) = decode buf sb eb sBit eBit := by
      rw [hraw, hre]
      split_ifs at hlt ⊢ with h0
      · exact Nat.mod_eq_of_lt hlt
      · exact Nat.mod_eq_of_lt hlt
    rw [show enumSet buf sb eb sBit eBit e = encode buf sb eb sBit eBit e.toRaw from rfl,
      decode_encode buf sb eb sBit eBit e.toRaw hbp hsb heb hse he31 hfit, hmain]

/-- C6 witness: the one-byte Enumerated field covering bits 0..=7 of the
buffer `[2]` decodes to the valid raw value 2 (`E::Z`); writing `E::Z` back
restores the same raw value. -/
theorem enum_adapter_contract_witness :
    decode (enumSet [2] 0 0 0 7 E.Z) 0 0 0 7 % 2 ^ 8 = decode [2] 0 0 0 7 % 2 ^ 8 :=
  (enum_adapter_contract [2] 0 0 0 7 8 (by decide) (by decide) (by decide) rfl
    (by decide) (by decide) (by decide)).2.2 E.Z rfl

/-- C7: the Nested View Projection contract. For a Nested field whose byte
span `sb..=eb` matches the inner record's declared length, projecting
succeeds and the inner view is exactly the outer buffer's byte range: it has
the span's length, every inner position reads the outer byte at the
corresponding offset, and its first byte is the outer byte at the field's
start offset. Mutation is shared both ways: any write through the inner
mutable view is visible through the outer `as_bytes()` at the corresponding
offsets while bytes outside the span are untouched, and a write through the
outer buffer is visible through a fresh projection of the inner view. -/
theorem nested_view_contract (buf : List Nat) (sb eb innerLen : Nat)
    (hsb : sb ≤ eb) (heb : eb < buf.length) (hlen : innerLen = eb + 1 - sb) :
    (nestedView buf sb eb innerLen = .ok ((buf.drop sb).take (eb + 1 - sb)))
    ∧ ((buf.drop sb).take (eb + 1 - sb)).length = eb + 1 - sb
    ∧ (∀ i, i < innerLen →
        ((buf.drop sb).take (eb + 1 - sb)).getD i 0 = buf.getD (sb + i) 0)
    ∧ ((buf.drop sb).take (eb + 1 - sb)).getD 0 0 = buf.getD sb 0
    ∧ (∀ f : List Nat → List Nat,
        (f ((buf.drop sb).take (eb + 1 - sb))).length = innerLen →
          (∀ i, i < innerLen →
            (writeThroughNested buf sb eb f).getD (sb + i) 0
              = (f ((buf.drop sb).take (eb + 1 - sb))).getD i 0)
          ∧ (∀ j, j < sb ∨ eb < j →
              (writeThroughNested buf sb eb f).getD j 0 = buf.getD j 0))
    ∧ (∀ i v, i < innerLen →
        nestedView (buf.set (sb + i) v) sb eb innerLen
          = .ok (((buf.drop sb).take (eb + 1 - sb)).set i v)) := by
  have hsl : ((buf.drop sb).take (eb + 1 - sb)).length = eb + 1 - sb := by
    rw [List.length_take, List.length_drop]
    omega
  have hA : (buf.take sb).length = sb := by
    rw [List.length_take]
    omega
  refine ⟨?_, hsl, ?_, ?_, ?_, ?_⟩
  · unfold nestedView overlayCast
    rw [if_neg (by rw [hsl]; omega)]
    congr 1
    rw [show innerLen = ((buf.drop sb).take (eb + 1 - sb)).length by rw [hsl, hlen],
      List.take_length]
  · intro i hi
    rw [getD_take _ _ _ (by omega), getD_drop]
  · rw [getD_take _ _ _ (by omega), getD_drop, Nat.add_zero]
  · intro f hf
    constructor
    · intro i hi
      unfold writeThroughNested
      rw [List.getD_eq_getElem?_getD,
        List.getElem?_append_left (by rw [List.length_append, hA, hf]; omega),
        List.getElem?_append_right (by rw [hA]; omega), hA,
        show sb + i - sb = i from by omega, ← List.getD_eq_getElem?_getD]
    · intro j hj
      unfold writeThroughNested
      rcases hj with hj | hj
      · rw [List.getD_eq_getElem?_getD,
          List.getElem?_append_left (by rw [List.length_append, hA, hf]; omega),
          List.getElem?_append_left (by rw [hA]; omega),
          List.getElem?_take_of_lt hj, ← List.getD_eq_getElem?_getD]
      · have hAB : (buf.take sb ++ f ((buf.drop sb).take (eb + 1 - sb))).length = eb + 1 := by
          rw [List.length_append, hA, hf]
          omega
        rw [List.getD_eq_getElem?_getD,
          List.getElem?_append_right (by rw [hAB]; omega), hAB, List.getElem?_drop,
          show eb + 1 + (j - (eb + 1)) = j from by omega, ← List.getD_eq_getElem?_getD]
  · intro i v hi
    have hslice : ((buf.set (sb + i) v).drop sb).take (eb + 1 - sb)
        = ((buf.drop sb).take (eb + 1 - sb)).set i v := by
      rw [List.drop_set, if_neg (by omega), show sb + i - sb = i from by omega, List.set_take]
    unfold nestedView overlayCast
    rw [hslice, if_neg (by rw [List.length_set, hsl]; omega)]
    congr 1
    rw [show innerLen = (((buf.drop sb).take (eb + 1 - sb)).set i v).length by
      rw [List.length_set, hsl, hlen], List.take_length]

/-- C7 witness: on the outer buffer `[23, 186, 3, 9]` with the nested field at
bytes 1..=3 (inner length 3), writing through the inner view — here setting
the inner byte 2 through the inner `set_b` accessor — is visible through the
outer buffer at offset 3. -/
theorem nested_view_contract_witness :
    (writeThroughNested [23, 186, 3, 9] 1 3 (fun l => encode l 2 2 0 7 253)).getD (1 + 2) 0
      = (encode (([23, 186, 3, 9].drop 1).take 3) 2 2 0 7 253).getD 2 0 :=
  (((nested_view_contract [23, 186, 3, 9] 1 3 3 (by decide) (by decide) (by decide)).2.2.2.2.1
    (fun l => encode l 2 2 0 7 253) (by decide)).1 2 (by decide))

/-- The generated bool getter reads exactly the addressed bit. -/
theorem boolGet_eq_testBit (buf : List Nat) (sb sBit : Nat) :
    boolGet buf sb sBit = (buf.getD sb 0).testBit sBit := by
  unfold boolGet Nat.testBit
  rw [Nat.land_comm (buf.getD sb 0 >>> sBit) 1]

/-- The generated bool setter writes exactly the addressed bit of the
addressed byte: position `(sb, s)` becomes the new bit, and every other bit of
every byte is untouched. -/
theorem boolSet_getD_testBit (buf : List Nat) (sb s : Nat) (v : Bool) (i j : Nat)
    (hb : ∀ k, buf.getD k 0 < 256) (hs : s < 8) (hsb : sb < buf.length) :
    ((boolSet buf sb s v).getD i 0).testBit j
      = if i = sb ∧ j = s then v else (buf.getD i 0).testBit j := by
  have hss : (1 <<< s) % 256 = 2 ^ s := by
    rw [Nat.one_shiftLeft]
    refine Nat.mod_eq_of_lt ?_
    calc (2 : Nat) ^ s < 2 ^ 8 := Nat.pow_lt_pow_of_lt (by norm_num) hs
    _ = 256 := by norm_num
  have h255bit : ∀ r, Nat.testBit 255 r = decide (r < 8) := by
    intro r
    have h := Nat.testBit_two_pow_sub_one 8 r
    norm_num at h
    exact h
  have hbyte : ∀ r, ((buf.getD sb 0 &&& (255 ^^^ ((1 <<< s) % 256)))
        ||| (((if v then (1 : Nat) else 0) <<< s) % 256)).testBit r
      = (((buf.getD sb 0).testBit r && (decide (r < 8) ^^ decide (s = r)))
          || (decide (r < 8) && (decide (r ≥ s)
              && (if v then (1 : Nat) else 0).testBit (r - s)))) := by
    intro r
    rw [Nat.testBit_lor, Nat.testBit_land, hss, Nat.testBit_xor, h255bit, Nat.testBit_two_pow,
      show (256 : Nat) = 2 ^ 8 from by norm_num, Nat.testBit_mod_two_pow, Nat.testBit_shiftLeft]
  rw [show boolSet buf sb s v = buf.set sb ((buf.getD sb 0 &&& (255 ^^^ ((1 <<< s) % 256)))
      ||| (((if v then (1 : Nat) else 0) <<< s) % 256)) from rfl, getD_set]
  by_cases hi : sb = i
  · rw [if_pos (show sb = i ∧ i < buf.length from ⟨hi, hi ▸ hsb⟩), hbyte j]
    by_cases hj : j = s
    · rw [if_pos (show i = sb ∧ j = s from ⟨hi.symm, hj⟩), hj]
      have hxor : (decide (s < 8) ^^ decide (s = s)) = false := by simp [hs]
      simp only [hxor, Bool.and_false, Bool.false_or, ge_iff_le, Nat.le_refl, decide_True,
        Nat.sub_self, Bool.true_and, hs]
      cases v <;> simp
    · rw [if_neg (show ¬ (i = sb ∧ j = s) from fun hh => hj hh.2), ← hi]
      by_cases hj8 : j < 8
      · rcases Nat.lt_or_ge j s with hjs | hjs
        · simp [hj8, show ¬ s = j from fun hh => hj hh.symm, show ¬ s ≤ j from by omega]
        · have hone : (if v then (1 : Nat) else 0).testBit (j - s) = false := by
            cases v
            · exact Nat.zero_testBit _
            · show Nat.testBit 1 (j - s) = false
              rw [show (1 : Nat) = 2 ^ 0 from by norm_num, Nat.testBit_two_pow]
              simp only [decide_eq_false_iff_not]
              omega
          simp [hj8, show ¬ s = j from fun hh => hj hh.symm, hone]
      · have hb8 : (buf.getD sb 0).testBit j = false := by
          refine Nat.testBit_lt_two_pow (lt_of_lt_of_le (hb sb) ?_)
          calc (256 : Nat) = 2 ^ 8 := by norm_num
          _ ≤ 2 ^ j := Nat.pow_le_pow_right (by norm_num) (by omega)
        have hd1 : decide (j < 8) = false := by simp [hj8]
        have hd2 : decide (s = j) = false := by simp [show ¬ s = j from by omega]
        rw [hd1, hd2, hb8]
        simp
  · rw [if_neg (show ¬ (sb = i ∧ i < buf.length) from fun hh => hi hh.1),
      if_neg (show ¬ (i = sb ∧ j = s) from fun hh => hi hh.1.symm)]

/-- C10: a Bool field declared with a byte span but no bit span gets start
bit 0: validation succeeds selecting bit 0, the getter reads exactly bit 0
(the least significant bit) of the addressed byte, the setter changes no bit
other than bit 0 of that byte and stores the new value there — while an
Integer field with no bit span defaults to the full width of its byte span
instead. -/
theorem bool_default_bit_zero (byte : SingleOrRange) (buf : List Nat) (v : Bool)
    (hvalid : byte.rangeValid = true) (hb : ∀ x ∈ buf, x < 256)
    (hsb : byte.start < buf.length) :
    validateBool byte none = some 0
    ∧ boolGet buf byte.start 0 = (buf.getD byte.start 0).testBit 0
    ∧ (∀ i j, ¬ (i = byte.start ∧ j = 0) →
        ((boolSet buf byte.start 0 v).getD i 0).testBit j = (buf.getD i 0).testBit j)
    ∧ ((boolSet buf byte.start 0 v).getD byte.start 0).testBit 0 = v
    ∧ intBitRange byte none = (0, byte.len * 8 - 1) := by
  have hbp := getD_lt_256 buf hb
  refine ⟨?_, boolGet_eq_testBit buf byte.start 0, ?_, ?_, rfl⟩
  · unfold validateBool
    rw [if_neg (by simp [hvalid])]
  · intro i j hij
    rw [boolSet_getD_testBit buf byte.start 0 v i j hbp (by norm_num) hsb, if_neg hij]
  · rw [boolSet_getD_testBit buf byte.start 0 v byte.start 0 hbp (by norm_num) hsb,
      if_pos ⟨rfl, rfl⟩]

/-- C10 witness: on the buffer `[7, 255]`, the Bool field `byte=1` (no bit
span) cleared to `false` leaves bit 0 of byte 1 cleared. -/
theorem bool_default_bit_zero_witness :
    ((boolSet [7, 255] 1 0 false).getD 1 0).testBit 0 = false :=
  (bool_default_bit_zero (.single 1) [7, 255] false rfl (by decide) (by decide)).2.2.2.1

/-- C9 (amended): the macro's Bool validation rejects a field exactly when a
range is malformed or the bit span covers more than one bit; it performs no
check on the byte span's width. Every accepted Bool field addresses exactly
one bit — the selected start bit of the byte span's first byte: the getter
reads only that bit and the setter changes only that bit, all checks
happening at definition time. -/
theorem bool_validation_amended (byte bits : SingleOrRange) (buf : List Nat) (v : Bool)
    (hb : ∀ x ∈ buf, x < 256) (hsb : byte.start < buf.length) :
    ((validateBool byte (some bits) = none) ↔
      (byte.rangeValid = false ∨ bits.rangeValid = false ∨ bits.endInclusive ≠ bits.start))
    ∧ (∀ sBit, validateBool byte (some bits) = some sBit →
        sBit = bits.start ∧ bits.len = 1
          ∧ (sBit < 8 →
              boolGet buf byte.start sBit = (buf.getD byte.start 0).testBit sBit
              ∧ (∀ i j, ¬ (i = byte.start ∧ j = sBit) →
                  ((boolSet buf byte.start sBit v).getD i 0).testBit j
                    = (buf.getD i 0).testBit j)
              ∧ ((boolSet buf byte.start sBit v).getD byte.start 0).testBit sBit = v)) := by
  have hbp := getD_lt_256 buf hb
  have hvb : validateBool byte (some bits)
      = (if byte.rangeValid = false then none
        else if bits.rangeValid = false then none
        else if bits.endInclusive ≠ bits.start then none
        else some bits.start) := rfl
  constructor
  · rw [hvb]
    split_ifs with h1 h2 h3 <;> simp_all
  · intro sBit hsome
    rw [hvb] at hsome
    split_ifs at hsome with h1 h2 h3
    injection hsome with h'
    have he : bits.endInclusive = bits.start := of_not_not h3
    refine ⟨h'.symm, ?_, ?_⟩
    · unfold SingleOrRange.len
      omega
    · intro hs8
      subst h'
      exact ⟨boolGet_eq_testBit buf byte.start bits.start,
        fun i j hij => by
          rw [boolSet_getD_testBit buf byte.start bits.start v i j hbp hs8 hsb, if_neg hij],
        by rw [boolSet_getD_testBit buf byte.start bits.start v byte.start bits.start hbp hs8 hsb,
          if_pos ⟨rfl, rfl⟩]⟩

/-- C9 witness: the single-bit Bool field `byte=0, bit=3` is accepted, and on
the buffer `[5]` its getter reads exactly bit 3 of byte 0. -/
theorem bool_validation_amended_witness :
    boolGet [5] 0 3 = ([5].getD 0 0).testBit 3 :=
  (((bool_validation_amended (.single 0) (.single 3) [5] false (by decide)
    (by decide)).2 3 rfl).2.2 (by decide)).1

/-- C1: the round-trip claim fails on the code. The layout `byte=0, bits=0..=0`
(Integer kind, one-byte span, bit window `0..=0`, `start ≤ end`) is valid, and
its window mask is `1`; yet after `set(2)` the getter returns `2`, not
`2 &&& 1 = 0`: because `end_bit = 0` the generated code skips the end mask
(`if end_bit > 0`), so the setter stores all of `v` and the getter reads it
back unmasked, contradicting the code's own `// mask off end_bit..` comment. -/
theorem set_get_roundtrip_fails_at_bit_window_zero :
    decode (encode [0] 0 0 0 0 2) 0 0 0 0 = 2 ∧ (2 : Nat) &&& 1 = 0 := by decide

/-- C2: the frame claim fails on the code. In a two-field record (field A at
byte 0 with declared bit window `0..=0`, field B at byte 1), setting field A
to 0 on the buffer `[255, 7]` rewrites byte 0 entirely — from 255 to 0 — so
bits 1..7 of byte 0, all outside field A's declared window, are changed: with
`end_bit = 0` the generated setter's mask degenerates to all-ones and the
read-modify-write clobbers every bit of the span. -/
theorem setter_frame_violated_at_bit_window_zero :
    encode [255, 7] 0 0 0 0 0 = [0, 7] ∧ Nat.testBit 255 3 = true
      ∧ Nat.testBit 0 3 = false ∧ setMask 0 0 = u32Max := by decide

/-- C3: the end-mask claim fails on the code. The generated getter performs
the end-mask step iff `end_bit > 0`, not iff `end_bit < 31`: for the valid
window `0..=0` of a one-byte field (`end = 0 < 31`, so the claim requires all
bits above bit 0 cleared) decoding the buffer `[2]` returns `2`, whose bit 1 —
above the declared end bit — is still set. -/
theorem decode_end_mask_skipped_at_zero :
    decode [2] 0 0 0 0 = 2 ∧ Nat.testBit (decode [2] 0 0 0 0) 1 = true := by decide

/-- C5: the concrete 5-byte `InquiryCommand` scenario of the spec and the
`integer_bool_getters` / `integer_bool_setters` tests: on bytes
`[5, 5, 0b0000_0111, 1, 4]` the getters return 5, true, 3, 260; after
`set_page_code(23)` byte 2 is `1 ||| (23 <<< 1) = 47` with all other bytes
unchanged, and after `set_allocation_length(1281)` bytes 3..=4 are `[5, 1]`. -/
theorem inquiry_concrete_scenario :
    inquiryOpCode [5, 5, 7, 1, 4] = 5
      ∧ inquiryProductData [5, 5, 7, 1, 4] = true
      ∧ inquiryPageCode [5, 5, 7, 1, 4] = 3
      ∧ inquiryAllocationLength [5, 5, 7, 1, 4] = 260
      ∧ inquirySetPageCode [5, 5, 7, 1, 4] 23 = [5, 5, 1 ||| (23 <<< 1), 1, 4]
      ∧ inquirySetAllocationLength [5, 5, 1 ||| (23 <<< 1), 1, 4] 1281
          = [5, 5, 1 ||| (23 <<< 1), 5, 1] := by decide

/-- C9 counterexample: the macro accepts a Bool field whose byte span covers
four bytes (`bytes=0..=3, bit=1`): `validateBool` performs no width check on
the byte span, so no `BadBoolRange`-style rejection of multi-byte Bool fields
exists — the claimed rejection condition is only about the bit span. -/
theorem bool_multibyte_byte_span_accepted :
    validateBool (.rangeIncl 0 3) (some (.single 1)) = some 1
      ∧ (SingleOrRange.rangeIncl 0 3).len = 4 := by decide
